import Mathlib

/-!
# Verification of the AI-Document-Interview-System ingestion and retrieval core

Shallow embedding of the algorithmic core of the repository:

* `backend/app/services/ingestion.py` — token-window chunking
  (`IngestionPipeline.chunk_text`), repeated header/footer stripping
  (`IngestionPipeline._strip_repeated_headers_footers`), plain-text extraction
  (`IngestionPipeline._extract_txt`), and the control flow of
  `IngestionPipeline.ingest`;
* `backend/app/services/retrieval.py` — score filtering
  (`RetrievalService._filter_hits`), overlap de-duplication
  (`RetrievalService._dedupe_hits` / `_overlaps`), source projection
  (`_build_sources`), grounded prompt assembly (`_build_prompt` /
  `_truncate`) and the control flow of `RetrievalService.answer`.

Python floats are modelled as `ℚ`, Python ints as `ℤ` (token offsets, pages)
or `ℕ` (counts and list positions), `None`-able values as `Option`.
-/

namespace AIDoc

/-! ## Chunker (`IngestionPipeline.chunk_text`)

A chunk's text is the detokenized window; the claims under check only concern
the positional metadata and the token windows themselves, so the tokenizer and
the detokenizer stay abstract: a segment is a `page` together with its encoded
token list. -/

/-- Metadata of one chunk emitted by `chunk_text` (the `meta` dict:
`chunk_index`, `page`, `start_token`, `end_token`). -/
structure Chunk where
  chunkIndex : ℕ
  page : Option ℤ
  startToken : ℕ
  endToken : ℕ
  deriving Repr, DecidableEq

/-- The `while start < len(tokens)` loop of `chunk_text`, fuel-indexed.
Each pass emits the window `[start, min(len(tokens), start + chunk_size))`;
it stops after a window whose end reaches the token count, and otherwise
advances to `max(0, end - overlap)` (which is `end - overlap` in `ℕ`).
`N` is the segment's token count.  Fuel `N + 1` is always enough
(`chunkWindows_fuel`). -/
def chunkWindows (cs ov N : ℕ) : ℕ → ℕ → List (ℕ × ℕ)
  | 0, _ => []
  | fuel + 1, start =>
    if start < N then
      let e := min N (start + cs)
      if N ≤ e then [(start, e)]
      else (start, e) :: chunkWindows cs ov N fuel (e - ov)
    else []

/-- All windows of one segment of `N` tokens: the loop from `start = 0`. -/
def segmentWindows (cs ov N : ℕ) : List (ℕ × ℕ) :=
  chunkWindows cs ov N (N + 1) 0

/-- `chunk_size = max(1, self.settings.chunk_size_tokens)`. -/
def chunkSizeEff (cst : ℤ) : ℕ := (max 1 cst).toNat

/-- `overlap = max(0, min(self.settings.chunk_overlap_tokens, chunk_size - 1))`. -/
def overlapEff (cst ovt : ℤ) : ℕ := (max 0 (min ovt (max 1 cst - 1))).toNat

/-- `tokens[start:end]` for a window `[s, e)`. -/
def slice (tokens : List ℤ) (s e : ℕ) : List ℤ :=
  (tokens.drop s).take (e - s)

/-- Concatenate the token windows, removing the first `ov` tokens of every
window after the first. -/
def reconstruct (ov : ℕ) (tokens : List ℤ) : List (ℕ × ℕ) → List ℤ
  | [] => []
  | w :: ws => slice tokens w.1 w.2 ++ (ws.map fun v => (slice tokens v.1 v.2).drop ov).flatten

/-- Turn the windows of one segment into `Chunk`s, continuing the running
`chunk_index` counter (`chunk_index += 1` inside the loop). -/
def indexWindows (page : Option ℤ) : ℕ → List (ℕ × ℕ) → List Chunk
  | _, [] => []
  | idx, w :: ws => ⟨idx, page, w.1, w.2⟩ :: indexWindows page (idx + 1) ws

/-- The `for page_no, text in segments` loop of `chunk_text`: one window pass
per segment, a single `chunk_index` counter across segments. -/
def chunkTextAux (cs ov : ℕ) : ℕ → List (Option ℤ × List ℤ) → List Chunk
  | _, [] => []
  | idx, (page, toks) :: rest =>
    let ws := segmentWindows cs ov toks.length
    indexWindows page idx ws ++ chunkTextAux cs ov (idx + ws.length) rest

/-- `IngestionPipeline.chunk_text`: clamp the configured sizes, then chunk
every segment with a single running `chunk_index`. -/
def chunk_text (cst ovt : ℤ) (segs : List (Option ℤ × List ℤ)) : List Chunk :=
  chunkTextAux (chunkSizeEff cst) (overlapEff cst ovt) 0 segs

/-! ### Loop lemmas -/

theorem chunkWindows_fuel (cs ov N : ℕ) (hov : ov < cs) :
    ∀ f₁ f₂ start, N - start < f₁ → N - start < f₂ →
      chunkWindows cs ov N f₁ start = chunkWindows cs ov N f₂ start := by
  intro f₁
  induction f₁ with
  | zero => intro f₂ start h₁ _; omega
  | succ f ih =>
    intro f₂ start h₁ h₂
    match f₂, h₂ with
    | f₂ + 1, h₂ =>
      simp only [chunkWindows]
      by_cases hs : start < N
      · simp only [hs, if_true]
        by_cases he : N ≤ min N (start + cs)
        · simp only [he, if_true]
        · simp only [he, if_false]
          have he' : min N (start + cs) = start + cs := by omega
          rw [ih f₂ (min N (start + cs) - ov) (by omega) (by omega)]
      · simp only [hs, if_false]

theorem chunkWindows_ne_nil (cs ov N fuel start : ℕ)
    (hs : start < N) (hf : N - start < fuel) :
    chunkWindows cs ov N fuel start ≠ [] := by
  match fuel, hf with
  | fuel + 1, _ =>
    simp only [chunkWindows, hs, if_true]
    by_cases he : N ≤ min N (start + cs) <;> simp [he]

theorem chunkWindows_head (cs ov N fuel start : ℕ)
    (hs : start < N) (hf : N - start < fuel) :
    (chunkWindows cs ov N fuel start).head? = some (start, min N (start + cs)) := by
  match fuel, hf with
  | fuel + 1, _ =>
    simp only [chunkWindows, hs, if_true]
    by_cases he : N ≤ min N (start + cs) <;> simp [he]

theorem chunkWindows_getElem? (cs ov N : ℕ) (hov : ov < cs) :
    ∀ fuel start i, N - start < fuel → i < (chunkWindows cs ov N fuel start).length →
      (chunkWindows cs ov N fuel start)[i]? =
        some (start + i * (cs - ov), min N (start + i * (cs - ov) + cs)) := by
  intro fuel
  induction fuel with
  | zero => intro start i _ h; simp [chunkWindows] at h
  | succ f ih =>
    intro start i hf h
    by_cases hs : start < N
    · by_cases he : N ≤ min N (start + cs)
      · simp only [chunkWindows, hs, if_true, he, if_true] at h ⊢
        have hi : i = 0 := by simpa using h
        subst hi
        simp
      · simp only [chunkWindows, hs, if_true, he, if_false] at h ⊢
        have hmin : min N (start + cs) = start + cs := by omega
        cases i with
        | zero => simp
        | succ i =>
          simp only [List.getElem?_cons_succ]
          have hrec := ih (min N (start + cs) - ov) i (by omega)
            (by simpa using Nat.lt_of_succ_lt_succ h)
          rw [hrec]
          have hstep : start + (i + 1) * (cs - ov) = min N (start + cs) - ov + i * (cs - ov) := by
            rw [Nat.succ_mul]
            generalize i * (cs - ov) = m
            omega
          rw [hstep]
    · simp [chunkWindows, hs] at h

theorem chunkWindows_getLast (cs ov N : ℕ) (hov : ov < cs) :
    ∀ fuel start, start < N → N - start < fuel →
      ((chunkWindows cs ov N fuel start).getLast?).map Prod.snd = some N := by
  intro fuel
  induction fuel with
  | zero => intro start _ h; omega
  | succ f ih =>
    intro start hs hf
    by_cases he : N ≤ min N (start + cs)
    · simp only [chunkWindows, hs, if_true, he]
      have : min N (start + cs) = N := by omega
      simp [this]
    · simp only [chunkWindows, hs, if_true, he, if_false]
      have hmin : min N (start + cs) = start + cs := by omega
      have hrec := ih (min N (start + cs) - ov) (by omega) (by omega)
      cases hrest : (chunkWindows cs ov N f (min N (start + cs) - ov)).getLast? with
      | none => rw [hrest] at hrec; simp at hrec
      | some p =>
        rw [hrest] at hrec
        simp only [Option.map_some'] at hrec
        rw [List.getLast?_cons, hrest]
        simpa using hrec

theorem chunkWindows_chain' (cs ov N : ℕ) (hov : ov < cs) :
    ∀ fuel start, N - start < fuel →
      List.Chain' (fun a b => b.1 ≤ a.2 ∧ a.1 < b.1) (chunkWindows cs ov N fuel start) := by
  intro fuel
  induction fuel with
  | zero => intro start _; simp [chunkWindows]
  | succ f ih =>
    intro start hf
    by_cases hs : start < N
    · by_cases he : N ≤ min N (start + cs)
      · simp [chunkWindows, hs, he]
      · simp only [chunkWindows, hs, if_true, he, if_false]
        rw [List.chain'_cons']
        have hmin : min N (start + cs) = start + cs := by omega
        refine ⟨?_, ih _ (by omega)⟩
        intro y hy
        rw [chunkWindows_head cs ov N f _ (by omega) (by omega)] at hy
        have hy' : y = (min N (start + cs) - ov,
            min N (min N (start + cs) - ov + cs)) := by
          simpa [eq_comm] using hy
        subst hy'
        refine ⟨show min N (start + cs) - ov ≤ min N (start + cs) by omega,
          show start < min N (start + cs) - ov by omega⟩
    · simp [chunkWindows, hs]

theorem slice_drop (tokens : List ℤ) (s e ov : ℕ) :
    (slice tokens s e).drop ov = slice tokens (s + ov) e := by
  simp only [slice, List.drop_take, List.drop_drop]
  congr 1
  omega

theorem slice_take_all (tokens : List ℤ) (s : ℕ) :
    slice tokens s tokens.length = tokens.drop s := by
  simp only [slice]
  rw [show tokens.length - s = (tokens.drop s).length by simp, List.take_length]

theorem slice_append_drop (tokens : List ℤ) (s e : ℕ) (hse : s ≤ e) :
    slice tokens s e ++ tokens.drop e = tokens.drop s := by
  have h1 : tokens.drop e = (tokens.drop s).drop (e - s) := by
    rw [List.drop_drop]
    congr 1
    omega
  rw [h1, slice, List.take_append_drop]

theorem chunkWindows_flatten_drop (cs ov : ℕ) (hov : ov < cs) (tokens : List ℤ) :
    ∀ fuel start, tokens.length - start < fuel →
      ((chunkWindows cs ov tokens.length fuel start).map
          fun w => slice tokens (w.1 + ov) w.2).flatten = tokens.drop (start + ov) := by
  intro fuel
  induction fuel with
  | zero =>
    intro start hf
    have hs : tokens.length ≤ start := by omega
    simp only [chunkWindows, List.map_nil, List.flatten_nil]
    rw [eq_comm, List.drop_eq_nil_iff]
    omega
  | succ f ih =>
    intro start hf
    by_cases hs : start < tokens.length
    · by_cases he : tokens.length ≤ min tokens.length (start + cs)
      · simp only [chunkWindows, hs, if_true, he, if_true, List.map_cons,
          List.map_nil, List.flatten_cons, List.flatten_nil, List.append_nil]
        have hmin : min tokens.length (start + cs) = tokens.length := by omega
        rw [hmin]
        exact slice_take_all tokens (start + ov)
      · simp only [chunkWindows, hs, if_true, he, if_false, List.map_cons, List.flatten_cons]
        have hmin : min tokens.length (start + cs) = start + cs := by omega
        rw [ih (min tokens.length (start + cs) - ov) (by omega)]
        rw [show min tokens.length (start + cs) - ov + ov =
              min tokens.length (start + cs) by omega]
        exact slice_append_drop tokens (start + ov) (min tokens.length (start + cs)) (by omega)
    · have hdrop : tokens.drop (start + ov) = [] := by
        rw [List.drop_eq_nil_iff]; omega
      simp [chunkWindows, hs, hdrop]

/-- C1. For every segment and every configuration with `0 ≤ overlap < chunk_size`,
the per-segment windows are `[k*(chunk_size-overlap),
min (k*(chunk_size-overlap)+chunk_size) N)` for `k = 0, 1, ...`; the final
window's end is the token count `N`; and concatenating the token windows with
the first `overlap` tokens of every window after the first removed
reconstructs the segment's token sequence. -/
theorem chunking_roundtrip (cs ov : ℕ) (tokens : List ℤ) (hov : ov < cs) :
    (∀ i, i < (segmentWindows cs ov tokens.length).length →
        (segmentWindows cs ov tokens.length)[i]? =
          some (i * (cs - ov), min (i * (cs - ov) + cs) tokens.length))
    ∧ (tokens ≠ [] →
        ((segmentWindows cs ov tokens.length).getLast?).map Prod.snd = some tokens.length)
    ∧ reconstruct ov tokens (segmentWindows cs ov tokens.length) = tokens := by
  refine ⟨?_, ?_, ?_⟩
  · intro i hi
    have := chunkWindows_getElem? cs ov tokens.length hov (tokens.length + 1) 0 i
      (by omega) hi
    simpa [segmentWindows, Nat.min_comm] using this
  · intro hne
    have hpos : 0 < tokens.length := List.length_pos.mpr hne
    exact chunkWindows_getLast cs ov tokens.length hov (tokens.length + 1) 0 hpos (by omega)
  · rcases Nat.eq_zero_or_pos tokens.length with hzero | hpos
    · have : tokens = [] := List.length_eq_zero.mp hzero
      subst this
      simp [segmentWindows, chunkWindows, reconstruct]
    · rw [segmentWindows, chunkWindows]
      simp only [hpos, if_true, Nat.zero_add]
      by_cases he : tokens.length ≤ min tokens.length cs
      · have hmin : min tokens.length cs = tokens.length := by omega
        simp only [he, if_true, hmin, reconstruct, List.map_nil, List.flatten_nil,
          List.append_nil]
        simpa using slice_take_all tokens 0
      · simp only [he, if_false, reconstruct]
        simp only [slice_drop]
        rw [chunkWindows_flatten_drop cs ov hov tokens tokens.length
          (min tokens.length cs - ov) (by omega)]
        have hmin : min tokens.length cs = cs := by omega
        rw [show min tokens.length cs - ov + ov = min tokens.length cs by omega]
        have h0 : slice tokens 0 (min tokens.length cs) = tokens.take (min tokens.length cs) := by
          simp [slice]
        rw [h0, List.take_append_drop]

/-- Witness for C1 at `chunk_size = 3`, `overlap = 1`,
`tokens = [10, 20, 30, 40, 50]`. -/
theorem chunking_roundtrip_witness :
    (1 : ℕ) < 3
    ∧ (segmentWindows 3 1 (([10, 20, 30, 40, 50] : List ℤ).length)).getLast?.map Prod.snd =
        some ([10, 20, 30, 40, 50] : List ℤ).length
    ∧ reconstruct 1 [10, 20, 30, 40, 50]
        (segmentWindows 3 1 (([10, 20, 30, 40, 50] : List ℤ).length)) = [10, 20, 30, 40, 50] :=
  ⟨by decide,
   (chunking_roundtrip 3 1 [10, 20, 30, 40, 50] (by decide)).2.1 (by decide),
   (chunking_roundtrip 3 1 [10, 20, 30, 40, 50] (by decide)).2.2⟩

theorem chunkSizeEff_pos (cst : ℤ) : 0 < chunkSizeEff cst := by
  unfold chunkSizeEff
  omega

theorem overlapEff_lt (cst ovt : ℤ) : overlapEff cst ovt < chunkSizeEff cst := by
  unfold overlapEff chunkSizeEff
  omega

/-- C6. The effective overlap is clamped to `[0, chunk_size - 1]` (a configured
overlap `≥ chunk_size` becomes `chunk_size - 1`), the window start strictly
increases on every iteration, and chunking terminates: any fuel beyond the
token count computes the same window list. -/
theorem overlap_clamp_and_termination (cst ovt : ℤ) :
    overlapEff cst ovt ≤ chunkSizeEff cst - 1
    ∧ ((chunkSizeEff cst : ℤ) ≤ ovt → overlapEff cst ovt = chunkSizeEff cst - 1)
    ∧ (∀ N : ℕ, List.Chain' (fun a b => a.1 < b.1)
        (segmentWindows (chunkSizeEff cst) (overlapEff cst ovt) N))
    ∧ (∀ N extra : ℕ,
        chunkWindows (chunkSizeEff cst) (overlapEff cst ovt) N (N + 1 + extra) 0 =
          segmentWindows (chunkSizeEff cst) (overlapEff cst ovt) N) := by
  refine ⟨by have := overlapEff_lt cst ovt; omega, ?_, ?_, ?_⟩
  · intro h
    unfold overlapEff chunkSizeEff at *
    omega
  · intro N
    exact (chunkWindows_chain' (chunkSizeEff cst) (overlapEff cst ovt) N
      (overlapEff_lt cst ovt) (N + 1) 0 (by omega)).imp fun a b h => h.2
  · intro N extra
    exact chunkWindows_fuel (chunkSizeEff cst) (overlapEff cst ovt) N
      (overlapEff_lt cst ovt) (N + 1 + extra) (N + 1) 0 (by omega) (by omega)

/-- Witness for C6 at the default configuration with an oversized overlap:
`chunk_size_tokens = 600`, `chunk_overlap_tokens = 900`. -/
theorem overlap_clamp_and_termination_witness :
    overlapEff 600 900 = chunkSizeEff 600 - 1 :=
  (overlap_clamp_and_termination 600 900).2.1 (by decide)

theorem indexWindows_length (page : Option ℤ) :
    ∀ (idx : ℕ) (ws : List (ℕ × ℕ)), (indexWindows page idx ws).length = ws.length := by
  intro idx ws
  induction ws generalizing idx with
  | nil => rfl
  | cons w ws ih => simp [indexWindows, ih]

theorem indexWindows_map_idx (page : Option ℤ) :
    ∀ (idx : ℕ) (ws : List (ℕ × ℕ)),
      (indexWindows page idx ws).map (fun c => c.chunkIndex) = List.range' idx ws.length := by
  intro idx ws
  induction ws generalizing idx with
  | nil => rfl
  | cons w ws ih => simp [indexWindows, List.range'_succ, ih]

theorem indexWindows_proj (page : Option ℤ) :
    ∀ (idx : ℕ) (ws : List (ℕ × ℕ)),
      (indexWindows page idx ws).map (fun c => (c.startToken, c.endToken)) = ws := by
  intro idx ws
  induction ws generalizing idx with
  | nil => rfl
  | cons w ws ih => simp [indexWindows, ih]

theorem chunkTextAux_map_idx (cs ov : ℕ) :
    ∀ (segs : List (Option ℤ × List ℤ)) (idx : ℕ),
      (chunkTextAux cs ov idx segs).map (fun c => c.chunkIndex) =
        List.range' idx (chunkTextAux cs ov idx segs).length := by
  intro segs
  induction segs with
  | nil => intro idx; rfl
  | cons seg rest ih =>
    intro idx
    obtain ⟨page, toks⟩ := seg
    simp only [chunkTextAux, List.map_append, List.length_append]
    rw [indexWindows_map_idx, ih, indexWindows_length]
    rw [List.range'_append_1]
    congr 1
    omega

/-- C7. `chunk_index` values over all segments of a document form the
contiguous sequence `0, 1, 2, ...` (one counter, never reset per segment),
and within one segment the token ranges never regress: each chunk's start is
at most the previous chunk's end and strictly greater than the previous
chunk's start. -/
theorem chunk_index_contiguous (cst ovt : ℤ) (segs : List (Option ℤ × List ℤ)) :
    (chunk_text cst ovt segs).map (fun c => c.chunkIndex) =
      List.range (chunk_text cst ovt segs).length
    ∧ ∀ (page : Option ℤ) (toks : List ℤ) (idx : ℕ),
        List.Chain' (fun c d => d.startToken ≤ c.endToken ∧ c.startToken < d.startToken)
          (indexWindows page idx
            (segmentWindows (chunkSizeEff cst) (overlapEff cst ovt) toks.length)) := by
  constructor
  · rw [chunk_text, chunkTextAux_map_idx, List.range_eq_range']
  · intro page toks idx
    have hchain : List.Chain' (fun a b => b.1 ≤ a.2 ∧ a.1 < b.1)
        (segmentWindows (chunkSizeEff cst) (overlapEff cst ovt) toks.length) :=
      chunkWindows_chain' _ _ _ (overlapEff_lt cst ovt) _ 0 (by omega)
    have hproj := indexWindows_proj page idx
      (segmentWindows (chunkSizeEff cst) (overlapEff cst ovt) toks.length)
    rw [← hproj] at hchain
    exact (List.chain'_map _).mp hchain

/-! ## Retrieval ranking (`RetrievalService`)

A `Hit` carries the payload fields `_filter_hits`, `_dedupe_hits`,
`_build_sources` and `_build_prompt` read: `document_id`, `document_title`,
`chunk_id`, `text`, `score`, and the `meta` keys `page`, `start_token`,
`end_token`, `text_snippet`.  A missing key or a `None` value is `none`.
Scores and ratios (Python floats) are modelled as `ℚ`. -/

structure Hit where
  documentId : Option String
  documentTitle : Option String
  chunkId : Option String
  text : Option String
  page : Option ℤ
  startToken : Option ℤ
  endToken : Option ℤ
  textSnippet : Option String
  score : Option ℚ
  deriving Repr, DecidableEq

/-- Python truthiness of an optional string: `None` and `""` are falsy. -/
def truthy : Option String → Bool
  | none => false
  | some s => s ≠ ""

/-- `RetrievalService._filter_hits`: when a `min_score` is set, keep the hits
with `(hit.score or 0.0) >= min_score` — a missing (or `0.0`) score is
replaced by `0.0` by the `or`. -/
def filter_hits (hits : List Hit) (minScore : Option ℚ) : List Hit :=
  match minScore with
  | none => hits
  | some m => hits.filter fun h => m ≤ h.score.getD 0

/-- `RetrievalService._overlaps`: disjoint (touching included) ranges short-
circuit to `False`; otherwise compare `overlap / min(len_a, len_b)` with the
threshold, zero-length ranges counted as length `1`. -/
def overlaps (a b : ℤ × ℤ) (threshold : ℚ) : Bool :=
  if a.2 ≤ b.1 ∨ b.2 ≤ a.1 then false
  else
    let overlap : ℤ := min a.2 b.2 - max a.1 b.1
    let lenA : ℤ := max 1 (a.2 - a.1)
    let lenB : ℤ := max 1 (b.2 - b.1)
    threshold ≤ (overlap : ℚ) / ((min lenA lenB : ℤ) : ℚ)

/-- `(payload.get("document_id", ""), meta.get("page"))`. -/
def hitKey (h : Hit) : String × Option ℤ := (h.documentId.getD "", h.page)

/-- The loop of `RetrievalService._dedupe_hits`.  The dict-of-lists
`ranges_by_doc_page` is flattened into an association list of
`(key, range)` entries in retention order, and `seen_chunk_ids` into a list;
`any(self._overlaps((start, end), r, overlap_ratio) for r in existing_ranges)`
becomes `any` over the entries with the hit's key. -/
def dedupeAux (ratio : ℚ) :
    List Hit → List ((String × Option ℤ) × ℤ × ℤ) → List String → List Hit
  | [], _, _ => []
  | h :: rest, ranges, seen =>
    if truthy h.chunkId ∧ h.chunkId.getD "" ∈ seen then
      dedupeAux ratio rest ranges seen
    else
      match h.startToken, h.endToken with
      | some s, some e =>
        if (ranges.filter fun r => r.1 = hitKey h).any fun r => overlaps (s, e) r.2 ratio then
          dedupeAux ratio rest ranges seen
        else
          h :: dedupeAux ratio rest (ranges ++ [(hitKey h, (s, e))])
            (if truthy h.chunkId then seen ++ [h.chunkId.getD ""] else seen)
      | _, _ =>
          h :: dedupeAux ratio rest ranges
            (if truthy h.chunkId then seen ++ [h.chunkId.getD ""] else seen)

/-- `RetrievalService._dedupe_hits` (default `overlap_ratio = 0.5`). -/
def dedupe_hits (hits : List Hit) (ratio : ℚ := 1/2) : List Hit :=
  dedupeAux ratio hits [] []

/-- The claim's overlap fraction:
`max(0, min(end_a, end_b) - max(start_a, start_b)) / min(len_a, len_b)`,
zero-length ranges treated as length `1`. -/
def overlapFrac (a b : ℤ × ℤ) : ℚ :=
  ((max 0 (min a.2 b.2 - max a.1 b.1) : ℤ) : ℚ) /
    ((min (max 1 (a.2 - a.1)) (max 1 (b.2 - b.1)) : ℤ) : ℚ)

/-- The de-duplication pass as the spec states it: drop a hit whose truthy
chunk id was already retained; drop a ranged hit whose overlap fraction with
some previously retained range of the same `(document, page)` reaches the
ratio; retain everything else, recording range and chunk id. -/
def specDedupeAux (ratio : ℚ) :
    List Hit → List ((String × Option ℤ) × ℤ × ℤ) → List String → List Hit
  | [], _, _ => []
  | h :: rest, ranges, seen =>
    if truthy h.chunkId ∧ h.chunkId.getD "" ∈ seen then
      specDedupeAux ratio rest ranges seen
    else
      match h.startToken, h.endToken with
      | some s, some e =>
        if (ranges.filter fun r => r.1 = hitKey h).any fun r =>
            decide (ratio ≤ overlapFrac (s, e) r.2) then
          specDedupeAux ratio rest ranges seen
        else
          h :: specDedupeAux ratio rest (ranges ++ [(hitKey h, (s, e))])
            (if truthy h.chunkId then seen ++ [h.chunkId.getD ""] else seen)
      | _, _ =>
          h :: specDedupeAux ratio rest ranges
            (if truthy h.chunkId then seen ++ [h.chunkId.getD ""] else seen)

def specDedupe (hits : List Hit) (ratio : ℚ) : List Hit :=
  specDedupeAux ratio hits [] []

theorem overlaps_iff (a b : ℤ × ℤ) (t : ℚ) (ht : 0 < t) :
    overlaps a b t = decide (t ≤ overlapFrac a b) := by
  unfold overlaps overlapFrac
  by_cases h : a.2 ≤ b.1 ∨ b.2 ≤ a.1
  · rw [if_pos h]
    have hov : min a.2 b.2 - max a.1 b.1 ≤ 0 := by omega
    have hmax : max 0 (min a.2 b.2 - max a.1 b.1) = 0 := by omega
    rw [hmax]
    have hnle : ¬ (t ≤ ((0 : ℤ) : ℚ) /
        ((min (max 1 (a.2 - a.1)) (max 1 (b.2 - b.1)) : ℤ) : ℚ)) := by
      push_cast
      rw [zero_div]
      exact not_le.mpr ht
    simp only [hnle, decide_eq_false_iff_not]
    simp [ht]
  · rw [if_neg h]
    have hden : (0 : ℚ) < ((min (max 1 (a.2 - a.1)) (max 1 (b.2 - b.1)) : ℤ) : ℚ) := by
      have : (1 : ℤ) ≤ min (max 1 (a.2 - a.1)) (max 1 (b.2 - b.1)) := by omega
      exact_mod_cast lt_of_lt_of_le zero_lt_one (by exact_mod_cast this)
    by_cases hov : (0 : ℤ) ≤ min a.2 b.2 - max a.1 b.1
    · have hmax : max 0 (min a.2 b.2 - max a.1 b.1) = min a.2 b.2 - max a.1 b.1 := by
        omega
      rw [hmax]
    · have hmax : max 0 (min a.2 b.2 - max a.1 b.1) = 0 := by omega
      rw [hmax]
      have hneg : ((min a.2 b.2 - max a.1 b.1 : ℤ) : ℚ) / _ ≤ 0 :=
        div_nonpos_of_nonpos_of_nonneg (by exact_mod_cast le_of_lt (by omega)) hden.le
      simp only [Int.cast_zero, zero_div, decide_eq_decide]
      constructor
      · intro hcontra
        exact absurd (le_trans hcontra hneg) (not_le.mpr ht)
      · intro hcontra
        exact absurd (lt_of_lt_of_le ht hcontra) (by simp)

theorem any_congr' {α : Type} (p q : α → Bool) :
    ∀ l : List α, (∀ x ∈ l, p x = q x) → l.any p = l.any q := by
  intro l
  induction l with
  | nil => intro _; rfl
  | cons a t ih =>
    intro hemem
    simp only [List.any_cons]
    rw [hemem a (by simp), ih fun x hx => hemem x (by simp [hx])]

theorem dedupeAux_eq_spec (ratio : ℚ) (ht : 0 < ratio) :
    ∀ hits ranges seen, dedupeAux ratio hits ranges seen = specDedupeAux ratio hits ranges seen := by
  intro hits
  induction hits with
  | nil => intro _ _; rfl
  | cons h rest ih =>
    intro ranges seen
    cases hst : h.startToken with
    | none =>
      simp only [dedupeAux, specDedupeAux, hst]
      by_cases hc : truthy h.chunkId ∧ h.chunkId.getD "" ∈ seen
      · rw [if_pos hc, if_pos hc, ih]
      · rw [if_neg hc, if_neg hc, ih]
    | some s =>
      cases hen : h.endToken with
      | none =>
        simp only [dedupeAux, specDedupeAux, hst, hen]
        by_cases hc : truthy h.chunkId ∧ h.chunkId.getD "" ∈ seen
        · rw [if_pos hc, if_pos hc, ih]
        · rw [if_neg hc, if_neg hc, ih]
      | some e =>
        simp only [dedupeAux, specDedupeAux, hst, hen]
        by_cases hc : truthy h.chunkId ∧ h.chunkId.getD "" ∈ seen
        · rw [if_pos hc, if_pos hc, ih]
        · rw [if_neg hc, if_neg hc]
          rw [any_congr' _ _ _ fun r _ => overlaps_iff (s, e) r.2 ratio ht]
          by_cases ha : ((ranges.filter fun r => r.1 = hitKey h).any fun r =>
              decide (ratio ≤ overlapFrac (s, e) r.2)) = true
          · rw [if_pos ha, if_pos ha, ih]
          · rw [if_neg ha, if_neg ha, ih]

theorem dedupeAux_sublist (ratio : ℚ) :
    ∀ hits ranges seen, (dedupeAux ratio hits ranges seen).Sublist hits := by
  intro hits
  induction hits with
  | nil => intro _ _; simp [dedupeAux]
  | cons h rest ih =>
    intro ranges seen
    cases hst : h.startToken with
    | none =>
      simp only [dedupeAux, hst]
      by_cases hc : truthy h.chunkId ∧ h.chunkId.getD "" ∈ seen
      · rw [if_pos hc]; exact (ih ranges seen).cons h
      · rw [if_neg hc]
        exact (ih _ _).cons₂ h
    | some s =>
      cases hen : h.endToken with
      | none =>
        simp only [dedupeAux, hst, hen]
        by_cases hc : truthy h.chunkId ∧ h.chunkId.getD "" ∈ seen
        · rw [if_pos hc]; exact (ih ranges seen).cons h
        · rw [if_neg hc]; exact (ih _ _).cons₂ h
      | some e =>
        simp only [dedupeAux, hst, hen]
        by_cases hc : truthy h.chunkId ∧ h.chunkId.getD "" ∈ seen
        · rw [if_pos hc]; exact (ih ranges seen).cons h
        · rw [if_neg hc]
          by_cases ha : ((ranges.filter fun r => r.1 = hitKey h).any fun r =>
              overlaps (s, e) r.2 ratio) = true
          · rw [if_pos ha]; exact (ih ranges seen).cons h
          · rw [if_neg ha]; exact (ih _ _).cons₂ h

/-- The spec's range de-dup example, first hit: document `"doc"`, page 1,
token range `[0, 100)`. -/
def hitA : Hit := ⟨some "doc", none, some "c1", none, some 1, some 0, some 100, none, none⟩

/-- Second hit of the example: same document and page, range `[60, 160)`. -/
def hitB : Hit := { hitA with chunkId := some "c2", startToken := some 60, endToken := some 160 }

/-- C2. For every ordered hit list and positive ratio, `_dedupe_hits` equals
the spec's description (`specDedupe`): a hit is dropped iff its truthy chunk
id was already retained, or it carries a token range whose `overlapFrac`
with some previously retained range of the same `(document, page)` reaches
the ratio (shorter-range denominator, zero-length as 1); hits without range
metadata are never range-deduplicated.  The result is an order-preserving
sublist, and on same-page ranges `[0,100)` and `[60,160)` both hits survive
ratio `0.5` while the second is dropped at ratio `0.3`. -/
theorem dedupe_characterization (hits : List Hit) (ratio : ℚ) (ht : 0 < ratio) :
    dedupe_hits hits ratio = specDedupe hits ratio
    ∧ (dedupe_hits hits ratio).Sublist hits
    ∧ dedupe_hits [hitA, hitB] (1/2) = [hitA, hitB]
    ∧ dedupe_hits [hitA, hitB] (3/10) = [hitA] := by
  refine ⟨dedupeAux_eq_spec ratio ht hits [] [], dedupeAux_sublist ratio hits [] [], ?_, ?_⟩
  · norm_num [dedupe_hits, dedupeAux, hitA, hitB, truthy, hitKey, overlaps]
    decide
  · norm_num [dedupe_hits, dedupeAux, hitA, hitB, truthy, hitKey, overlaps]

/-- Witness for C2 at the default ratio `0.5` on the two example hits. -/
theorem dedupe_characterization_witness :
    (0 : ℚ) < 1/2 ∧ dedupe_hits [hitA, hitB] (1/2) = specDedupe [hitA, hitB] (1/2) :=
  ⟨by norm_num, (dedupe_characterization [hitA, hitB] (1/2) (by norm_num)).1⟩

/-- A hit with no payload at all — in particular no score. -/
def noScoreHit : Hit := ⟨none, none, none, none, none, none, none, none, none⟩

/-- A hit carrying only a score. -/
def scoredHit (q : ℚ) : Hit := { noScoreHit with score := some q }

/-- C3 counterexample: with `min_score = 0.5`, `_filter_hits` DROPS a hit
whose score is absent (the `or` in `(hit.score or 0.0) >= min_score` turns a
missing score into `0.0`), whereas the claim says a hit is dropped only when
its score is present and below the threshold. -/
theorem filter_hits_drops_scoreless :
    filter_hits [noScoreHit] (some (1/2)) = [] ∧ noScoreHit.score = none := by
  constructor
  · norm_num [filter_hits, noScoreHit]
  · rfl

/-- C3 amended: with no `min_score` every hit passes unchanged; with
`min_score = m` the result is the order-preserving sublist of exactly those
hits whose score — an absent score counting as `0.0` — is `≥ m`; hits scored
`[0.9, 0.4, 0.2]` with `min_score = 0.5` keep only the `0.9` hit. -/
theorem filter_hits_amended :
    (∀ hits : List Hit, filter_hits hits none = hits)
    ∧ (∀ (hits : List Hit) (m : ℚ), (filter_hits hits (some m)).Sublist hits)
    ∧ (∀ (hits : List Hit) (m : ℚ) (h : Hit),
        h ∈ filter_hits hits (some m) ↔ h ∈ hits ∧ m ≤ h.score.getD 0)
    ∧ filter_hits [scoredHit (9/10), scoredHit (4/10), scoredHit (2/10)] (some (1/2)) =
        [scoredHit (9/10)] := by
  refine ⟨fun hits => rfl, fun hits m => List.filter_sublist hits, ?_, ?_⟩
  · intro hits m h
    simp [filter_hits, List.mem_filter]
  · norm_num [filter_hits, scoredHit, noScoreHit]

/-! ## Prompt assembly (`RetrievalService._build_prompt` / `_truncate`)

An `AnswerSource` carries the fields `_build_prompt` reads: `document_id`,
`document_title`, and the metadata entries `page`, `text` (present when the
payload text was truthy) and `text_snippet`. -/

structure AnswerSource where
  documentId : String
  documentTitle : Option String
  score : Option ℚ
  page : Option ℤ
  text : Option String
  textSnippet : Option String
  deriving Repr, DecidableEq

/-- `RetrievalService._truncate` (default `limit = 1200`). -/
def truncate (text : String) (limit : ℕ := 1200) : String :=
  if text.length ≤ limit then text else text.take limit ++ "..."

/-- `source.document_title or source.document_id` (`None` and `""` are falsy). -/
def titleOf (s : AnswerSource) : String :=
  match s.documentTitle with
  | some t => if t = "" then s.documentId else t
  | none => s.documentId

/-- `f" (page ...)" if page else ""` — the int `0` is falsy. -/
def locationOf (s : AnswerSource) : String :=
  match s.page with
  | some p => if p = 0 then "" else " (page " ++ toString p ++ ")"
  | none => ""

/-- Python `or` on an optional string with a default. -/
def orElse : Option String → String → String
  | some s, d => if s = "" then d else s
  | none, d => d

/-- `meta.get("text") or meta.get("text_snippet") or ""`. -/
def bodyOf (s : AnswerSource) : String :=
  orElse s.text (orElse s.textSnippet "")

/-- `f"[(idx)] (title)(location) :: (body)"` with the body truncated. -/
def sourceBlock (idx : ℕ) (s : AnswerSource) : String :=
  "[" ++ toString idx ++ "] " ++ titleOf s ++ locationOf s ++ " :: " ++ truncate (bodyOf s) 1200

/-- `enumerate(sources, start=1)` over the block builder. -/
def sourceBlocks : ℕ → List AnswerSource → List String
  | _, [] => []
  | idx, s :: rest => sourceBlock idx s :: sourceBlocks (idx + 1) rest

/-- The fixed fallback answer sentence of the no-source prompt. -/
def idkSentence : String := "I do not know based on the provided documents."

/-- The `if not sources` branch of `_build_prompt`. -/
def noSourcesPrompt (question : String) : String :=
  "You are an assistant that only answers based on provided sources.\n" ++
  "No sources were retrieved for this question. Respond with \"" ++ idkSentence ++ "\"" ++
  "\n\nQuestion: " ++ question

/-- The instruction header of the grounded prompt. -/
def groundedHeader : String :=
  "You are a grounded assistant. Use ONLY the sources below to answer. " ++
  "Cite sources using [number] markers. If the sources are insufficient, say you do not know.\n\n"

/-- `RetrievalService._build_prompt`. -/
def build_prompt (question : String) (sources : List AnswerSource) : String :=
  if sources = [] then noSourcesPrompt question
  else
    groundedHeader ++ "Question: " ++ question ++ "\n\nSources:\n" ++
      String.intercalate "\n\n" (sourceBlocks 1 sources)

/-- One source block as the claim words it: 1-based index, document title
with fallback to the document id when the title is absent, a page suffix
when page metadata exists, the body preferring the full chunk text over the
snippet, truncated at 1200 characters. -/
def specSourceBlock (idx : ℕ) (s : AnswerSource) : String :=
  "[" ++ toString idx ++ "] " ++ s.documentTitle.getD s.documentId ++
    (match s.page with
      | some p => " (page " ++ toString p ++ ")"
      | none => "") ++
    " :: " ++ truncate (s.text.getD (s.textSnippet.getD "")) 1200

def specSourceBlocks : ℕ → List AnswerSource → List String
  | _, [] => []
  | idx, s :: rest => specSourceBlock idx s :: specSourceBlocks (idx + 1) rest

/-- Non-degenerate payload values: a present title is not the empty string,
a present page is not `0`, a present full text is not empty (Python
truthiness coincides with presence on such sources). -/
def wellFormedSource (s : AnswerSource) : Prop :=
  s.documentTitle ≠ some "" ∧ s.page ≠ some 0 ∧ s.text ≠ some ""

/-- `t` occurs as a contiguous substring of `s`. -/
def containsStr (s t : String) : Prop :=
  ∃ pre post, s.data = pre ++ t.data ++ post

theorem orElse_empty (o : Option String) : orElse o "" = o.getD "" := by
  cases o with
  | none => rfl
  | some s =>
    by_cases hs : s = "" <;> simp [orElse, hs]

theorem titleOf_eq (s : AnswerSource) (h1 : s.documentTitle ≠ some "") :
    titleOf s = s.documentTitle.getD s.documentId := by
  unfold titleOf
  cases ht : s.documentTitle with
  | none => rfl
  | some t =>
    have hne : t ≠ "" := by rintro rfl; exact h1 ht
    simp [hne]

theorem locationOf_eq (s : AnswerSource) (h2 : s.page ≠ some 0) :
    locationOf s =
      match s.page with
      | some p => " (page " ++ toString p ++ ")"
      | none => "" := by
  unfold locationOf
  cases hp : s.page with
  | none => rfl
  | some p =>
    have hne : p ≠ 0 := by rintro rfl; exact h2 hp
    simp [hne]

theorem bodyOf_eq (s : AnswerSource) (h3 : s.text ≠ some "") :
    bodyOf s = s.text.getD (s.textSnippet.getD "") := by
  unfold bodyOf
  cases htx : s.text with
  | none => exact orElse_empty s.textSnippet
  | some t =>
    have hne : t ≠ "" := by rintro rfl; exact h3 htx
    simp [orElse, hne]

theorem sourceBlock_eq_spec (idx : ℕ) (s : AnswerSource) (hwf : wellFormedSource s) :
    sourceBlock idx s = specSourceBlock idx s := by
  obtain ⟨h1, h2, h3⟩ := hwf
  unfold sourceBlock specSourceBlock
  rw [titleOf_eq s h1, locationOf_eq s h2, bodyOf_eq s h3]

theorem sourceBlocks_eq_spec :
    ∀ (sources : List AnswerSource) (idx : ℕ), (∀ s ∈ sources, wellFormedSource s) →
      sourceBlocks idx sources = specSourceBlocks idx sources := by
  intro sources
  induction sources with
  | nil => intro _ _; rfl
  | cons s rest ih =>
    intro idx hwf
    simp only [sourceBlocks, specSourceBlocks]
    rw [sourceBlock_eq_spec idx s (hwf s (by simp)),
      ih (idx + 1) fun x hx => hwf x (by simp [hx])]

/-- C5. With no sources, the prompt contains the literal question and the
fixed "I do not know based on the provided documents." instruction; with
sources, the prompt is the grounded header, the question, and one block per
source in order, rendered exactly as the claim describes (`specSourceBlocks`);
and `_truncate` cuts at 1200 characters with a trailing ellipsis exactly when
the text is longer than 1200. -/
theorem build_prompt_correct :
    (∀ question : String,
        containsStr (build_prompt question []) question
        ∧ containsStr (build_prompt question []) idkSentence)
    ∧ (∀ (question : String) (sources : List AnswerSource),
        sources ≠ [] → (∀ s ∈ sources, wellFormedSource s) →
        build_prompt question sources =
          groundedHeader ++ "Question: " ++ question ++ "\n\nSources:\n" ++
            String.intercalate "\n\n" (specSourceBlocks 1 sources))
    ∧ (∀ t : String,
        (t.length ≤ 1200 → truncate t 1200 = t)
        ∧ (1200 < t.length → truncate t 1200 = t.take 1200 ++ "...")) := by
  refine ⟨?_, ?_, ?_⟩
  · intro question
    constructor
    · refine ⟨("You are an assistant that only answers based on provided sources.\n" ++
        "No sources were retrieved for this question. Respond with \"" ++ idkSentence ++ "\"" ++
        "\n\nQuestion: ").data, [], ?_⟩
      simp [build_prompt, noSourcesPrompt, String.data_append]
    · refine ⟨("You are an assistant that only answers based on provided sources.\n" ++
        "No sources were retrieved for this question. Respond with \"").data,
        ("\"" ++ "\n\nQuestion: " ++ question).data, ?_⟩
      simp [build_prompt, noSourcesPrompt, String.data_append]
  · intro question sources hne hwf
    rw [build_prompt, if_neg hne, sourceBlocks_eq_spec sources 1 hwf]
  · intro t
    constructor
    · intro hlen
      simp [truncate, hlen]
    · intro hlen
      rw [truncate, if_neg (by omega)]

/-- Witness for C5: one well-formed source with a title, page 2 and a short
body. -/
theorem build_prompt_correct_witness :
    (([⟨"d1", some "Title", none, some 2, some "Body", none⟩] : List AnswerSource) ≠ [])
    ∧ (∀ s ∈ ([⟨"d1", some "Title", none, some 2, some "Body", none⟩] : List AnswerSource),
        wellFormedSource s)
    ∧ build_prompt "What powers the cell?"
          [⟨"d1", some "Title", none, some 2, some "Body", none⟩] =
        groundedHeader ++ "Question: " ++ "What powers the cell?" ++ "\n\nSources:\n" ++
          String.intercalate "\n\n"
            (specSourceBlocks 1 [⟨"d1", some "Title", none, some 2, some "Body", none⟩]) :=
  ⟨by simp,
   by intro s hs
      simp only [List.mem_singleton] at hs
      subst hs
      exact ⟨by simp, by simp, by simp⟩,
   build_prompt_correct.2.1 "What powers the cell?"
     [⟨"d1", some "Title", none, some 2, some "Body", none⟩] (by simp)
     (by intro s hs
         simp only [List.mem_singleton] at hs
         subst hs
         exact ⟨by simp, by simp, by simp⟩)⟩

/-! ## Header/footer stripping (`IngestionPipeline._strip_repeated_headers_footers`)

A segment is `(page, lines)` where `lines` is `text.splitlines()`; since
`"\n".join` is the inverse of `splitlines` on newline-free lines, the
function is embedded at the line level.  `str.strip()` is `stripStr`. -/

/-- `str.strip()`: drop leading and trailing whitespace. -/
def stripStr (s : String) : String :=
  ⟨((s.data.dropWhile Char.isWhitespace).reverse.dropWhile Char.isWhitespace).reverse⟩

/-- `[ln.strip() for ln in text.splitlines() if ln.strip()]`. -/
def cleanLines (lines : List String) : List String :=
  (lines.map stripStr).filter fun l => l ≠ ""

/-- `first_lines`: the first non-blank stripped line of every segment that
has one. -/
def firstLines (segs : List (Option ℤ × List String)) : List String :=
  segs.filterMap fun seg => (cleanLines seg.2).head?

/-- `last_lines`: the last non-blank stripped line of every segment that has
one. -/
def lastLines (segs : List (Option ℤ × List String)) : List String :=
  segs.filterMap fun seg => (cleanLines seg.2).getLast?

/-- Values in first-occurrence order (the iteration order of a
`collections.Counter`). -/
def firstOccsAux (seen : List String) : List String → List String
  | [] => []
  | x :: xs => if x ∈ seen then firstOccsAux seen xs else x :: firstOccsAux (seen ++ [x]) xs

def firstOccs (l : List String) : List String := firstOccsAux [] l

/-- The head of `Counter(lines).most_common(1)`: the maximal count, earliest
first occurrence winning ties (`sorted` is stable). -/
def pickMax : List (String × ℕ) → Option (String × ℕ)
  | [] => none
  | p :: ps =>
    match pickMax ps with
    | none => some p
    | some q => if q.2 > p.2 then some q else some p

/-- `max(2, math.ceil(len(segments) * 0.6))`; for naturals
`ceil(0.6 * total) = (3 * total + 4) / 5` (`threshold_eq_ceil`). -/
def threshold (total : ℕ) : ℕ := max 2 ((3 * total + 4) / 5)

/-- The inner `most_common` helper: `None` on an empty list, otherwise the
most frequent value if its count reaches the threshold. -/
def mostCommon (total : ℕ) (lines : List String) : Option String :=
  if lines = [] then none
  else
    match pickMax ((firstOccs lines).map fun s => (s, lines.countP fun y => y = s)) with
    | none => none
    | some lc => if threshold total ≤ lc.2 then some lc.1 else none

/-- The `deduped` accumulation: skip a line equal to the previously kept one.
The lines reaching it are already stripped, so the `ln.strip()` in the
comparison is the identity and is omitted. -/
def collapseAux (last : String) : List String → List String
  | [] => []
  | l :: ls => if l = last then collapseAux last ls else l :: collapseAux l ls

/-- Collapse immediately-consecutive duplicate lines to one. -/
def collapse : List String → List String
  | [] => []
  | l :: ls => l :: collapseAux l ls

/-- `if header and lines and lines[0].strip() == header: lines = lines[1:]`. -/
def dropHeader (header : Option String) (lines : List String) : List String :=
  match header with
  | none => lines
  | some h =>
    match lines with
    | [] => []
    | l :: ls => if stripStr l = h then ls else l :: ls

/-- `if footer and lines and lines[-1].strip() == footer: lines = lines[:-1]`. -/
def dropFooter (footer : Option String) (lines : List String) : List String :=
  match footer with
  | none => lines
  | some f =>
    match lines.getLast? with
    | none => lines
    | some l => if stripStr l = f then lines.dropLast else lines

/-- The per-segment body of the final loop: strip every line, remove a
leading header / trailing footer match (comparing stripped lines), collapse
consecutive duplicates, and keep only non-blank lines. -/
def stripSegmentLines (header footer : Option String) (lines0 : List String) : List String :=
  (collapse (dropFooter footer (dropHeader header (lines0.map stripStr)))).filter
    fun l => l ≠ ""

/-- `IngestionPipeline._strip_repeated_headers_footers`: fewer than two
segments are returned unchanged; otherwise every segment is stripped against
the accepted header/footer candidates and segments that become empty are
dropped. -/
def strip_repeated_headers_footers (segs : List (Option ℤ × List String)) :
    List (Option ℤ × List String) :=
  if segs.length < 2 then segs
  else
    segs.filterMap fun seg =>
      if stripSegmentLines (mostCommon segs.length (firstLines segs))
          (mostCommon segs.length (lastLines segs)) seg.2 = [] then none
      else some (seg.1, stripSegmentLines (mostCommon segs.length (firstLines segs))
          (mostCommon segs.length (lastLines segs)) seg.2)

/-- The claim's first-line candidates: the first non-blank line of each
segment, verbatim. -/
def specFirstLines (segs : List (Option ℤ × List String)) : List String :=
  segs.filterMap fun seg => (seg.2.filter fun l => l ≠ "").head?

def specLastLines (segs : List (Option ℤ × List String)) : List String :=
  segs.filterMap fun seg => (seg.2.filter fun l => l ≠ "").getLast?

/-- Remove the header line where it appears verbatim at the start. -/
def specDropHeader (header : Option String) (lines : List String) : List String :=
  match header with
  | none => lines
  | some h =>
    match lines with
    | [] => []
    | l :: ls => if l = h then ls else l :: ls

/-- Remove the footer line where it appears verbatim at the end. -/
def specDropFooter (footer : Option String) (lines : List String) : List String :=
  match footer with
  | none => lines
  | some f =>
    match lines.getLast? with
    | none => lines
    | some l => if l = f then lines.dropLast else lines

/-- One segment as the claim words it: strip the accepted header (resp.
footer) line from the start (resp. end) when it appears there verbatim, then
collapse immediately-consecutive duplicate lines. -/
def specStripSegment (header footer : Option String) (lines : List String) : List String :=
  collapse (specDropFooter footer (specDropHeader header lines))

/-- Header/footer stripping as the claim words it. -/
def specStripHeadersFooters (segs : List (Option ℤ × List String)) :
    List (Option ℤ × List String) :=
  if segs.length < 2 then segs
  else
    segs.filterMap fun seg =>
      if specStripSegment (mostCommon segs.length (specFirstLines segs))
          (mostCommon segs.length (specLastLines segs)) seg.2 = [] then none
      else some (seg.1, specStripSegment (mostCommon segs.length (specFirstLines segs))
          (mostCommon segs.length (specLastLines segs)) seg.2)

theorem threshold_eq_ceil (total : ℕ) : threshold total = max 2 ⌈(total : ℚ) * 0.6⌉₊ := by
  have h06 : (0.6 : ℚ) = 3 / 5 := by norm_num
  rcases Nat.eq_zero_or_pos total with h0 | hpos
  · subst h0
    norm_num [threshold]
  · have hceil : ⌈(total : ℚ) * 0.6⌉₊ = (3 * total + 4) / 5 := by
      have hk0 : (3 * total + 4) / 5 ≠ 0 := by omega
      rw [Nat.ceil_eq_iff hk0, h06]
      have hrw : (total : ℚ) * (3 / 5) = (3 * total : ℚ) / 5 := by ring
      have h2 : 1 ≤ (3 * total + 4) / 5 := by omega
      constructor
      · rw [hrw, lt_div_iff₀ (by norm_num : (0 : ℚ) < 5)]
        have h1 : 5 * ((3 * total + 4) / 5) ≤ 3 * total + 4 := by omega
        have h1' : (5 : ℚ) * (((3 * total + 4) / 5 : ℕ) : ℚ) ≤ 3 * total + 4 := by
          exact_mod_cast h1
        push_cast [h2]
        linarith
      · rw [hrw, div_le_iff₀ (by norm_num : (0 : ℚ) < 5)]
        have h3 : 3 * total ≤ 5 * ((3 * total + 4) / 5) := by omega
        have h3' : (3 : ℚ) * total ≤ 5 * (((3 * total + 4) / 5 : ℕ) : ℚ) := by
          exact_mod_cast h3
        linarith
    rw [threshold, hceil]

theorem map_stripStr_id (ls : List String) (h : ∀ l ∈ ls, stripStr l = l) :
    ls.map stripStr = ls := by
  calc ls.map stripStr = ls.map id := List.map_congr_left h
  _ = ls := List.map_id ls

theorem mem_of_getLast?_eq {l : List String} {a : String} (h : l.getLast? = some a) :
    a ∈ l := by
  obtain ⟨hne, rfl⟩ := List.mem_getLast?_eq_getLast (show a ∈ l.getLast? by rw [h]; rfl)
  exact List.getLast_mem hne

theorem collapseAux_subset (x : String) :
    ∀ (last : String) (ls : List String), x ∈ collapseAux last ls → x ∈ ls := by
  intro last ls
  induction ls generalizing last with
  | nil => intro hx; exact absurd hx (List.not_mem_nil x)
  | cons l ls ih =>
    intro hx
    rw [collapseAux] at hx
    by_cases hc : l = last
    · rw [if_pos hc] at hx
      exact List.mem_cons_of_mem l (ih last hx)
    · rw [if_neg hc] at hx
      rcases List.mem_cons.mp hx with rfl | hx
      · exact List.mem_cons_self x ls
      · exact List.mem_cons_of_mem l (ih l hx)

theorem collapse_subset (x : String) (ls : List String) (hx : x ∈ collapse ls) : x ∈ ls := by
  cases ls with
  | nil => exact absurd hx (List.not_mem_nil x)
  | cons l ls =>
    rw [collapse] at hx
    rcases List.mem_cons.mp hx with rfl | hx
    · exact List.mem_cons_self x ls
    · exact List.mem_cons_of_mem l (collapseAux_subset x l ls hx)

theorem specDropHeader_subset (x : String) (header : Option String) (lines : List String)
    (hx : x ∈ specDropHeader header lines) : x ∈ lines := by
  cases header with
  | none => exact hx
  | some h =>
    cases lines with
    | nil => exact hx
    | cons l ls =>
      have hx' : x ∈ (if l = h then ls else l :: ls) := hx
      by_cases hc : l = h
      · rw [if_pos hc] at hx'
        exact List.mem_cons_of_mem l hx'
      · rwa [if_neg hc] at hx'

theorem specDropFooter_subset (x : String) (footer : Option String) (lines : List String)
    (hx : x ∈ specDropFooter footer lines) : x ∈ lines := by
  cases footer with
  | none => exact hx
  | some f =>
    have hx' : x ∈ (match lines.getLast? with
        | none => lines
        | some l => if l = f then lines.dropLast else lines) := hx
    cases hlast : lines.getLast? with
    | none => rw [hlast] at hx'; exact hx'
    | some l =>
      rw [hlast] at hx'
      have hx'' : x ∈ (if l = f then lines.dropLast else lines) := hx'
      by_cases hc : l = f
      · rw [if_pos hc] at hx''
        exact (List.dropLast_sublist lines).subset hx''
      · rwa [if_neg hc] at hx''

theorem dropHeader_eq_spec (header : Option String) (lines : List String)
    (h : ∀ l ∈ lines, stripStr l = l) :
    dropHeader header lines = specDropHeader header lines := by
  cases header with
  | none => rfl
  | some hd =>
    cases lines with
    | nil => rfl
    | cons l ls =>
      show (if stripStr l = hd then ls else l :: ls) = if l = hd then ls else l :: ls
      rw [h l (List.mem_cons_self l ls)]

theorem dropFooter_eq_spec (footer : Option String) (lines : List String)
    (h : ∀ l ∈ lines, stripStr l = l) :
    dropFooter footer lines = specDropFooter footer lines := by
  cases footer with
  | none => rfl
  | some f =>
    show (match lines.getLast? with
        | none => lines
        | some l => if stripStr l = f then lines.dropLast else lines) =
      (match lines.getLast? with
        | none => lines
        | some l => if l = f then lines.dropLast else lines)
    cases hlast : lines.getLast? with
    | none => rfl
    | some l =>
      show (if stripStr l = f then lines.dropLast else lines) =
        if l = f then lines.dropLast else lines
      rw [h l (mem_of_getLast?_eq hlast)]

theorem stripSegmentLines_eq_spec (header footer : Option String) (lines : List String)
    (hl : ∀ l ∈ lines, stripStr l = l ∧ l ≠ "") :
    stripSegmentLines header footer lines = specStripSegment header footer lines := by
  have h1 : ∀ l ∈ lines, stripStr l = l := fun l m => (hl l m).1
  have hmap : lines.map stripStr = lines := map_stripStr_id lines h1
  rw [stripSegmentLines, specStripSegment, hmap, dropHeader_eq_spec header lines h1]
  have hsub2 : ∀ x ∈ specDropHeader header lines, x ∈ lines :=
    fun x hx => specDropHeader_subset x header lines hx
  rw [dropFooter_eq_spec footer _ fun l m => h1 l (hsub2 l m)]
  apply List.filter_eq_self.mpr
  intro a ha
  have hmem : a ∈ lines :=
    hsub2 a (specDropFooter_subset a footer _ (collapse_subset a _ ha))
  simpa using (hl a hmem).2

theorem filterMap_congr' {α β : Type} (f g : α → Option β) :
    ∀ l : List α, (∀ x ∈ l, f x = g x) → l.filterMap f = l.filterMap g := by
  intro l
  induction l with
  | nil => intro _; rfl
  | cons a t ih =>
    intro h
    simp only [List.filterMap_cons, h a (List.mem_cons_self a t)]
    cases g a <;> simp [ih fun x hx => h x (List.mem_cons_of_mem a hx)]

theorem firstLines_eq_spec (segs : List (Option ℤ × List String))
    (hclean : ∀ seg ∈ segs, ∀ l ∈ seg.2, stripStr l = l ∧ l ≠ "") :
    firstLines segs = specFirstLines segs := by
  apply filterMap_congr'
  intro seg hm
  have : cleanLines seg.2 = seg.2.filter fun l => l ≠ "" := by
    rw [cleanLines, map_stripStr_id seg.2 fun l m => (hclean seg hm l m).1]
  rw [this]

theorem lastLines_eq_spec (segs : List (Option ℤ × List String))
    (hclean : ∀ seg ∈ segs, ∀ l ∈ seg.2, stripStr l = l ∧ l ≠ "") :
    lastLines segs = specLastLines segs := by
  apply filterMap_congr'
  intro seg hm
  have : cleanLines seg.2 = seg.2.filter fun l => l ≠ "" := by
    rw [cleanLines, map_stripStr_id seg.2 fun l m => (hclean seg hm l m).1]
  rw [this]

/-- The spec's example: five segments, four sharing the first line
`"CONFIDENTIAL"`. -/
def confidentialSegs : List (Option ℤ × List String) :=
  [(some 1, ["CONFIDENTIAL", "alpha"]), (some 2, ["CONFIDENTIAL", "beta"]),
   (some 3, ["CONFIDENTIAL", "gamma"]), (some 4, ["CONFIDENTIAL", "delta"]),
   (some 5, ["intro", "epsilon"])]

/-- On segments of stripped non-blank lines the original claim wording and
the code agree; `strip_headers_footers_counterexample` shows they part ways
as soon as a blank line is present. -/
theorem strip_eq_spec_of_clean (segs : List (Option ℤ × List String))
    (hclean : ∀ seg ∈ segs, ∀ l ∈ seg.2, stripStr l = l ∧ l ≠ "") :
    strip_repeated_headers_footers segs = specStripHeadersFooters segs := by
  rw [strip_repeated_headers_footers, specStripHeadersFooters]
  by_cases hlen : segs.length < 2
  · rw [if_pos hlen, if_pos hlen]
  · rw [if_neg hlen, if_neg hlen, firstLines_eq_spec segs hclean,
      lastLines_eq_spec segs hclean]
    apply filterMap_congr'
    intro seg hm
    rw [stripSegmentLines_eq_spec _ _ seg.2 fun l m => hclean seg hm l m]

/-- C4 counterexample.  `_normalize_text` keeps single blank separator lines,
and on them the code does more than the claim says: it whitespace-strips
every line and drops blank lines from the output.  On the two segments
`["H", "", "x"]` and `["H", "y"]` the shared first non-blank line `"H"`
reaches the threshold `max(2, ceil(0.6*2)) = 2` and is stripped by both the
code and the claim's description, but the code then also drops the blank
line, returning `["x"]` where the claim's description keeps `["", "x"]`. -/
theorem strip_headers_footers_counterexample :
    strip_repeated_headers_footers [(some 1, ["H", "", "x"]), (some 2, ["H", "y"])] =
      [(some 1, ["x"]), (some 2, ["y"])]
    ∧ specStripHeadersFooters [(some 1, ["H", "", "x"]), (some 2, ["H", "y"])] =
      [(some 1, ["", "x"]), (some 2, ["y"])]
    ∧ strip_repeated_headers_footers [(some 1, ["H", "", "x"]), (some 2, ["H", "y"])] ≠
      specStripHeadersFooters [(some 1, ["H", "", "x"]), (some 2, ["H", "y"])] := by
  refine ⟨by decide, by decide, by decide⟩

theorem stripStr_idem (s : String) : stripStr (stripStr s) = stripStr s := by
  have key : ∀ cs : List Char,
      List.rdropWhile Char.isWhitespace (List.dropWhile Char.isWhitespace
        (List.rdropWhile Char.isWhitespace (List.dropWhile Char.isWhitespace cs))) =
      List.rdropWhile Char.isWhitespace (List.dropWhile Char.isWhitespace cs) := by
    intro cs
    have hdw : List.dropWhile Char.isWhitespace
        (List.rdropWhile Char.isWhitespace (List.dropWhile Char.isWhitespace cs)) =
        List.rdropWhile Char.isWhitespace (List.dropWhile Char.isWhitespace cs) := by
      cases hLc : List.rdropWhile Char.isWhitespace (List.dropWhile Char.isWhitespace cs) with
      | nil => rfl
      | cons a t' =>
        obtain ⟨t, ht⟩ := List.rdropWhile_prefix Char.isWhitespace
          (List.dropWhile Char.isWhitespace cs)
        rw [hLc] at ht
        have hlist : List.dropWhile Char.isWhitespace cs = a :: (t' ++ t) := by
          rw [← ht]
          simp
        have hh := List.head?_dropWhile_not Char.isWhitespace cs
        rw [hlist] at hh
        simp only [List.head?_cons] at hh
        rw [List.dropWhile_cons, hh]
        simp
    rw [hdw]
    exact List.rdropWhile_idempotent _ _
  exact congrArg String.mk (key s.data)

/-- The amended claim's candidates: the first non-blank line of each segment
after whitespace-stripping every line. -/
def specFirstLinesAmended (segs : List (Option ℤ × List String)) : List String :=
  segs.filterMap fun seg => ((seg.2.map stripStr).filter fun l => l ≠ "").head?

/-- The amended claim's candidates at segment ends. -/
def specLastLinesAmended (segs : List (Option ℤ × List String)) : List String :=
  segs.filterMap fun seg => ((seg.2.map stripStr).filter fun l => l ≠ "").getLast?

/-- One segment as the amended claim words it: whitespace-strip every line,
remove the accepted header (resp. footer) where the stripped first (resp.
last) line equals it, collapse immediately-consecutive duplicates, and drop
blank lines. -/
def specStripSegmentAmended (header footer : Option String) (lines : List String) :
    List String :=
  (collapse (specDropFooter footer (specDropHeader header (lines.map stripStr)))).filter
    fun l => l ≠ ""

/-- Header/footer stripping as the amended claim words it. -/
def specStripHeadersFootersAmended (segs : List (Option ℤ × List String)) :
    List (Option ℤ × List String) :=
  if segs.length < 2 then segs
  else
    segs.filterMap fun seg =>
      if specStripSegmentAmended (mostCommon segs.length (specFirstLinesAmended segs))
          (mostCommon segs.length (specLastLinesAmended segs)) seg.2 = [] then none
      else some (seg.1, specStripSegmentAmended
          (mostCommon segs.length (specFirstLinesAmended segs))
          (mostCommon segs.length (specLastLinesAmended segs)) seg.2)

theorem stripSegmentLines_eq_amended (header footer : Option String) (lines : List String) :
    stripSegmentLines header footer lines = specStripSegmentAmended header footer lines := by
  have hmem : ∀ l ∈ lines.map stripStr, stripStr l = l := by
    intro l hl
    obtain ⟨x, _, rfl⟩ := List.mem_map.mp hl
    exact stripStr_idem x
  rw [stripSegmentLines, specStripSegmentAmended, dropHeader_eq_spec header _ hmem,
    dropFooter_eq_spec footer _ fun l m => hmem l (specDropHeader_subset l header _ m)]

/-- C4 amended.  For every segment list, `_strip_repeated_headers_footers`
equals the amended description: every line is whitespace-stripped; the most
frequent stripped first (resp. last) non-blank line, accepted iff its
frequency reaches `max(2, ceil(0.6 * segment_count))`, is removed from the
start (resp. end) of exactly those segments whose stripped first (resp.
last) line equals it; immediately-consecutive duplicate lines collapse to
one; blank lines are dropped from the output; segments that become empty
are dropped.  Fewer than two segments are returned unchanged, and with five
segments of which four begin with `"CONFIDENTIAL"` that line is stripped
from exactly those four. -/
theorem strip_headers_footers_amended :
    (∀ segs : List (Option ℤ × List String),
        strip_repeated_headers_footers segs = specStripHeadersFootersAmended segs)
    ∧ (∀ short : List (Option ℤ × List String), short.length < 2 →
        strip_repeated_headers_footers short = short)
    ∧ strip_repeated_headers_footers confidentialSegs =
        [(some 1, ["alpha"]), (some 2, ["beta"]), (some 3, ["gamma"]),
         (some 4, ["delta"]), (some 5, ["intro", "epsilon"])] := by
  refine ⟨?_, ?_, ?_⟩
  · intro segs
    rw [strip_repeated_headers_footers, specStripHeadersFootersAmended]
    by_cases hlen : segs.length < 2
    · rw [if_pos hlen, if_pos hlen]
    · rw [if_neg hlen, if_neg hlen,
        show firstLines segs = specFirstLinesAmended segs from rfl,
        show lastLines segs = specLastLinesAmended segs from rfl]
      apply filterMap_congr'
      intro seg _
      rw [stripSegmentLines_eq_amended]
  · intro short hshort
    rw [strip_repeated_headers_footers, if_pos hshort]
  · decide

/-- Witness for C4: a single-segment list is returned unchanged, and the
five-segment example matches the amended description. -/
theorem strip_headers_footers_amended_witness :
    ([((some 1 : Option ℤ), ["solo"])] : List (Option ℤ × List String)).length < 2
    ∧ strip_repeated_headers_footers [((some 1 : Option ℤ), ["solo"])] =
        [((some 1 : Option ℤ), ["solo"])]
    ∧ strip_repeated_headers_footers confidentialSegs =
        specStripHeadersFootersAmended confidentialSegs :=
  ⟨by decide,
   strip_headers_footers_amended.2.1 [((some 1 : Option ℤ), ["solo"])] (by decide),
   strip_headers_footers_amended.1 confidentialSegs⟩

/-! ## Plain-text extraction (`IngestionPipeline._extract_txt`) -/

/-- `IngestionPipeline._extract_txt`: the decoded file content (read with
`errors="ignore"`, so decoding itself never raises) becomes a single segment
whose page number is `1`. -/
def extract_txt (content : String) : List (Option ℤ × String) :=
  [(some 1, content)]

/-- C9 counterexample: `_extract_txt` labels its single segment with page
number `1`, never `none` — the claim's "page number is none" fails on any
file, here on content `"hello"`. -/
theorem extract_txt_page_one :
    extract_txt "hello" = [(some 1, "hello")]
    ∧ (extract_txt "hello").map Prod.fst ≠ [none] := by
  constructor
  · rfl
  · decide

/-- C9 amended: for every plain-text or markdown file, extraction yields
exactly one segment containing the whole decoded file content, with page
number `1`. -/
theorem extract_txt_single_segment (content : String) :
    extract_txt content = [(some 1, content)] := rfl

/-! ## Ingestion control flow (`IngestionPipeline.ingest`) -/

/-- Which pipeline stages succeed in one run.  `persistOk` covers the whole
`try` block: `_persist_document`, `persist_chunks` and the `commit`. -/
structure IngestSteps where
  extractOk : Bool
  chunkOk : Bool
  embedOk : Bool
  persistOk : Bool
  deriving Repr, DecidableEq

/-- Observable outcome of one `ingest` run: the job record's final status,
whether `db.rollback()` ran, whether the transaction committed, and whether
an exception propagated to the caller. -/
structure IngestOutcome where
  jobStatus : String
  rolledBack : Bool
  committed : Bool
  raised : Bool
  deriving Repr, DecidableEq

/-- Control flow of `IngestionPipeline.ingest` for a run with a job id:
`_mark_job_running` first sets the job to `"running"`; `extract_text`,
`chunk_text` and `embed_chunks` run OUTSIDE the `try` block, so an exception
there propagates with no rollback and no job update; only the persistence
phase is wrapped in `try/except`, which rolls back, runs `_mark_job_failed`
and re-raises; `_mark_job_complete` runs after a successful commit. -/
def ingestRun (st : IngestSteps) (hasJob : Bool) : IngestOutcome :=
  let running := if hasJob then "running" else "pending"
  if !st.extractOk then ⟨running, false, false, true⟩
  else if !st.chunkOk then ⟨running, false, false, true⟩
  else if !st.embedOk then ⟨running, false, false, true⟩
  else if !st.persistOk then ⟨if hasJob then "failed" else running, true, false, true⟩
  else ⟨if hasJob then "completed" else running, false, true, false⟩

/-- C8 (code bug): when extraction raises in a run with a job id, `ingest`
leaves the job in `"running"` and performs no rollback, against the claim
(and spec §7) that every stage failure rolls back and marks the job failed.
Persistence failures do roll back and mark the job failed, and
`"completed"` is reached only when persistence succeeded and committed. -/
theorem ingest_extraction_failure_leaves_job_running :
    ingestRun ⟨false, true, true, true⟩ true = ⟨"running", false, false, true⟩
    ∧ ingestRun ⟨true, true, true, false⟩ true = ⟨"failed", true, false, true⟩
    ∧ ∀ (st : IngestSteps) (hasJob : Bool),
        (ingestRun st hasJob).jobStatus = "completed" →
          st.persistOk = true ∧ (ingestRun st hasJob).committed = true := by
  refine ⟨rfl, rfl, ?_⟩
  intro st hasJob hc
  obtain ⟨e, c, em, p⟩ := st
  cases e <;> cases c <;> cases em <;> cases p <;> cases hasJob <;>
    simp_all [ingestRun]

/-- Witness for C8's completion conjunct: the all-stages-succeed run with a
job id commits and is marked completed. -/
theorem ingest_extraction_failure_leaves_job_running_witness :
    (ingestRun ⟨true, true, true, true⟩ true).jobStatus = "completed"
    ∧ (⟨true, true, true, true⟩ : IngestSteps).persistOk = true
    ∧ (ingestRun ⟨true, true, true, true⟩ true).committed = true :=
  ⟨rfl, (ingest_extraction_failure_leaves_job_running.2.2 ⟨true, true, true, true⟩ true rfl).1,
    (ingest_extraction_failure_leaves_job_running.2.2 ⟨true, true, true, true⟩ true rfl).2⟩

/-! ## Query answering control flow (`RetrievalService.answer`) -/

/-- The external calls `answer` can make, in order. -/
inductive RetrievalEffect : Type
  | embedCall (question : String)
  | vectorQuery (topK : ℕ)
  | chatCall (prompt : String)
  deriving Repr, DecidableEq

/-- The request fields `answer` reads. -/
structure QueryReq where
  question : String
  topK : ℕ
  minScore : Option ℚ
  deriving Repr, DecidableEq

/-- `_build_sources` projection of one retained hit: the metadata gains a
`"text"` entry only when the payload text is truthy. -/
def buildSource (h : Hit) : AnswerSource :=
  { documentId := h.documentId.getD ""
    documentTitle := h.documentTitle
    score := h.score
    page := h.page
    text := if truthy h.text then h.text else none
    textSnippet := h.textSnippet }

def buildSources (hits : List Hit) : List AnswerSource := hits.map buildSource

/-- Control flow of `RetrievalService.answer`.  With a falsy
`client.api_key` it returns the fixed not-configured response immediately;
otherwise it embeds the question, queries the vector store, filters, dedupes,
builds sources and the prompt, and chats.  The collaborators are oracle
functions, and the effect list records the external calls actually made. -/
def answer (apiKey : Option String) (embedFn : String → List ℚ)
    (queryFn : List ℚ → ℕ → List Hit) (chatFn : String → String) (q : QueryReq) :
    (String × List AnswerSource) × List RetrievalEffect :=
  if !truthy apiKey then
    (("Retrieval pipeline not yet configured. Set AIDOC_OPENAI_API_KEY and implement chunk retrieval.",
      []), [])
  else
    ((chatFn (build_prompt q.question
        (buildSources (dedupe_hits (filter_hits (queryFn (embedFn q.question) q.topK)
          q.minScore) (1/2)))),
      buildSources (dedupe_hits (filter_hits (queryFn (embedFn q.question) q.topK)
        q.minScore) (1/2))),
     [RetrievalEffect.embedCall q.question, RetrievalEffect.vectorQuery q.topK,
      RetrievalEffect.chatCall (build_prompt q.question
        (buildSources (dedupe_hits (filter_hits (queryFn (embedFn q.question) q.topK)
          q.minScore) (1/2))))])

/-- C10. With no (or an empty) API key configured, `answer` returns the fixed
not-configured answer with an empty source list and makes no embedding call,
no vector-index query, and no chat call. -/
theorem answer_not_configured (apiKey : Option String) (embedFn : String → List ℚ)
    (queryFn : List ℚ → ℕ → List Hit) (chatFn : String → String) (q : QueryReq)
    (hkey : truthy apiKey = false) :
    answer apiKey embedFn queryFn chatFn q =
      (("Retrieval pipeline not yet configured. Set AIDOC_OPENAI_API_KEY and implement chunk retrieval.",
        []), []) := by
  rw [answer, hkey]
  rfl

/-- Witness for C10 at `api_key = None` with trivial oracle collaborators. -/
theorem answer_not_configured_witness :
    truthy none = false
    ∧ answer none (fun _ => []) (fun _ _ => []) (fun _ => "") ⟨"q", 5, none⟩ =
        (("Retrieval pipeline not yet configured. Set AIDOC_OPENAI_API_KEY and implement chunk retrieval.",
          []), []) :=
  ⟨rfl, answer_not_configured none (fun _ => []) (fun _ _ => []) (fun _ => "") ⟨"q", 5, none⟩ rfl⟩
end AIDoc
